import Mathlib

/-!
Shallow embedding of the `compile-fmt` crate (fixed-capacity compile-time
string formatter) and proofs of the specification claims.

Modelling conventions:
* a Rust `char` is a `Nat` that is a Unicode scalar value (`isScalar`);
* a Rust `&str` is a `List Nat` of scalar values; its UTF-8 bytes are
  obtained with `strBytes`;
* the byte buffer of `CompileArgs<CAP>` is modelled by the list of bytes
  written so far (the prefix `storage[0..len]`); every write primitive
  returns `Option`, `none` modelling a panic / abort (out-of-bounds write
  or invalid UTF-8 encountered by a scanner);
* byte-level scanners from `utils.rs` walk the byte list exactly as the
  source walks `s_bytes` by `pos`; the structural `fuel` argument (always
  instantiated with the byte length, an upper bound on the number of loop
  iterations) only makes the recursion structural and is provably never
  exhausted.
-/

/-- Unicode scalar values: the invariant of the Rust `char` type. -/
def isScalar (c : Nat) : Prop := c < 0xD800 ∨ (0xE000 ≤ c ∧ c < 0x110000)

instance (c : Nat) : Decidable (isScalar c) := by unfold isScalar; infer_instance

/-- All elements of the list are Unicode scalar values (invariant of `&str`). -/
def Scalars (s : List Nat) : Prop := ∀ c ∈ s, isScalar c

instance (s : List Nat) : Decidable (Scalars s) := by unfold Scalars; infer_instance

/-- Number of bytes in the UTF-8 encoding of scalar `c` (Rust `char::len_utf8`). -/
def utf8Len (c : Nat) : Nat :=
  if c < 0x80 then 1
  else if c < 0x800 then 2
  else if c < 0x10000 then 3
  else 4

/-- UTF-8 encoding of scalar `c`, exactly as `CompileArgs::write_char` emits it
(`lib.rs` lines 160-198): branch on `len_utf8`, emit the tag byte and the
`10xxxxxx` continuation bytes. -/
def encodeChar (c : Nat) : List Nat :=
  if c < 0x80 then [c]
  else if c < 0x800 then
    [(c >>> 6 &&& 0x1f) ||| 0xC0,
     (c &&& 0x3f) ||| 0x80]
  else if c < 0x10000 then
    [(c >>> 12 &&& 0x0f) ||| 0xE0,
     (c >>> 6 &&& 0x3f) ||| 0x80,
     (c &&& 0x3f) ||| 0x80]
  else
    [(c >>> 18 &&& 0x07) ||| 0xF0,
     (c >>> 12 &&& 0x3f) ||| 0x80,
     (c >>> 6 &&& 0x3f) ||| 0x80,
     (c &&& 0x3f) ||| 0x80]

/-- UTF-8 bytes of a string (list of scalars). -/
def strBytes : List Nat → List Nat
  | [] => []
  | c :: cs => encodeChar c ++ strBytes cs

/-- Leading-byte dispatch shared by the loops of `count_chars`,
`ClippedStr::new` and the UTF-8 scanning in `utils.rs`: how many bytes the
scalar starting at byte `b` occupies; `none` models the `unreachable!()`
(panic) arm for an invalid leading byte. -/
def charWidth (b : Nat) : Option Nat :=
  if b < 128 then some 1
  else if b >>> 5 = 0b110 then some 2
  else if b >>> 4 = 0b1110 then some 3
  else if b >>> 3 = 0b11110 then some 4
  else none

/-- Loop of `count_chars` (`utils.rs` lines 43-62). `fuel` bounds the number
of iterations (instantiated with the length of the byte list; each iteration
consumes at least one byte). -/
def countCharsAux : Nat → List Nat → Option Nat
  | _, [] => some 0
  | 0, _ :: _ => none
  | fuel + 1, b :: rest =>
    match charWidth b with
    | none => none
    | some w => (countCharsAux fuel (rest.drop (w - 1))).map (· + 1)

/-- `count_chars(s)` on raw bytes; `none` models the panic on invalid UTF-8. -/
def count_chars_bytes (bs : List Nat) : Option Nat := countCharsAux bs.length bs

/-- Loop of `ClippedStr::new` (`utils.rs` lines 14-39): consume at most
`char_count` scalars, returning the consumed byte prefix and the remaining
bytes. `none` models a panic (invalid leading byte, or the
`assert!(pos <= s_bytes.len())` failing because the last scalar's declared
width ran past the end of the input). -/
def clippedStrAux : Nat → List Nat → Nat → Option (List Nat × List Nat)
  | _, bs, 0 => some ([], bs)
  | _, [], _ + 1 => some ([], [])
  | 0, _ :: _, _ + 1 => none
  | fuel + 1, b :: rest, n + 1 =>
    match charWidth b with
    | none => none
    | some w =>
      if w - 1 ≤ rest.length then
        match clippedStrAux fuel (rest.drop (w - 1)) n with
        | none => none
        | some (pre, rem) => some (b :: (rest.take (w - 1) ++ pre), rem)
      else none

/-- `ClippedStr::new(s, char_count)`: the byte prefix covering the first
`char_count` scalars together with the `Clipped` flag (`true` iff the scan
stopped strictly before the end of the input, i.e. `pos < s_bytes.len()`). -/
def ClippedStr.new (bs : List Nat) (char_count : Nat) : Option (List Nat × Bool) :=
  match clippedStrAux bs.length bs char_count with
  | none => none
  | some (pre, rem) => some (pre, !rem.isEmpty)

/-- Loop of `assert_is_ascii` (`utils.rs` lines 64-79): `false` models the
`compile_panic!` on the first byte `≥ 128`. -/
def assert_is_ascii : List Nat → Bool
  | [] => true
  | b :: rest => if b < 128 then assert_is_ascii rest else false

/-- `Ascii::new(s)` (`argument.rs` lines 178-181): wraps the string after
`assert_is_ascii`; `none` models the panic on non-ASCII input. -/
def Ascii.new (s : List Nat) : Option (List Nat) :=
  if assert_is_ascii (strBytes s) then some s else none

/-- Loop of `log_10_ceil` (`argument.rs` lines 66-77): number of decimal
digits of `value` (where `0` has one digit). `fuel` bounds the iteration
count; it is instantiated with `value` itself, which suffices because
`value / 10 < value` for positive `value`. -/
def log10CeilAux : Nat → Nat → Nat
  | _, 0 => 0
  | 0, _ + 1 => 0
  | fuel + 1, v + 1 => 1 + log10CeilAux fuel ((v + 1) / 10)

/-- `log_10_ceil(value)` from `argument.rs`. -/
def log_10_ceil (value : Nat) : Nat :=
  if value = 0 then 1 else log10CeilAux value value

/-- Little-endian digit bytes taken by the loop of `write_u128`
(`argument.rs` lines 85-92): `count` bytes `b'0' + value % 10`, dividing
`value` by ten after each one. The loop writes them at descending positions,
so the buffer receives their reverse. -/
def decDigitsRevAux : Nat → Nat → List Nat
  | 0, _ => []
  | k + 1, v => (48 + v % 10) :: decDigitsRevAux k (v / 10)

/-- Length of a string in bytes and chars (`format.rs` lines 9-15). -/
structure StrLength where
  bytes : Nat
  chars : Nat
  deriving DecidableEq, Repr

/-- `StrLength::both` (`format.rs` lines 33-38). -/
def StrLength.both (value : Nat) : StrLength := ⟨value, value⟩

/-- Padding alignment (`core::fmt::Alignment`); the crate's `pad_left`,
`pad_right` and `pad_center` produce `left`, `right` and `center`.
In the specification's terminology, `Start` is `left` and `End` is `right`. -/
inductive PadAlignment where
  | left
  | right
  | center
  deriving DecidableEq, Repr

/-- `Pad` directive (`format.rs` lines 41-46): alignment, target width in
chars and fill char. -/
structure Pad where
  align : PadAlignment
  width : Nat
  using' : Nat
  deriving DecidableEq, Repr

/-- `Pad::compute_padding` (`format.rs` lines 49-61). -/
def Pad.compute_padding (p : Pad) (char_count : Nat) : Nat × Nat :=
  if char_count ≥ p.width then (0, 0)
  else match p.align with
    | .left => (0, p.width - char_count)
    | .right => (p.width - char_count, 0)
    | .center =>
      let total_padding := p.width - char_count
      (total_padding / 2, total_padding - total_padding / 2)

/-- `StrFormat` (`format.rs` lines 267-270): clip directive for strings. -/
structure StrFormat where
  clip_at : Nat
  using' : List Nat
  deriving DecidableEq, Repr

/-- `ArgumentInner` (`argument.rs` lines 11-17). The `Str` variant also covers
`Ascii` strings and nested `CompileArgs` references, which `into_argument`
converts to plain string arguments. -/
inductive ArgumentInner where
  | str (s : List Nat) (fmt : Option StrFormat)
  | char (c : Nat)
  | int (v : Int)
  | uint (v : Nat)
  deriving DecidableEq, Repr

/-- Byte length of the `Int` arm of `ArgumentInner::formatted_len`
(`argument.rs` line 32): sign byte plus `log_10_ceil` of the absolute value. -/
def intLen (v : Int) : Nat := (if v < 0 then 1 else 0) + log_10_ceil v.natAbs

/-- Byte length of the `UnsignedInt` arm of `ArgumentInner::formatted_len`
(`argument.rs` line 35). -/
def uintLen (v : Nat) : Nat := log_10_ceil v

/-- `ArgumentInner::formatted_len` (`argument.rs` lines 20-37); `none` models
a panic inside the UTF-8 scanners (unreachable for valid strings). -/
def ArgumentInner.formatted_len : ArgumentInner → Option StrLength
  | .str s none =>
    (count_chars_bytes (strBytes s)).map fun n => ⟨(strBytes s).length, n⟩
  | .str s (some fmt) =>
    match ClippedStr.new (strBytes s) fmt.clip_at with
    | none => none
    | some (_, false) =>
      (count_chars_bytes (strBytes s)).map fun n => ⟨(strBytes s).length, n⟩
    | some (bytes, true) =>
      (count_chars_bytes (strBytes fmt.using')).map fun m =>
        ⟨bytes.length + (strBytes fmt.using').length, fmt.clip_at + m⟩
  | .char c => some ⟨utf8Len c, 1⟩
  | .int v => some (.both (intLen v))
  | .uint v => some (.both (uintLen v))

/-- `Argument` (`argument.rs` lines 43-46). -/
structure Argument where
  inner : ArgumentInner
  pad : Option Pad
  deriving DecidableEq, Repr

/-- `Argument::formatted_len` (`argument.rs` lines 50-63): the per-argument
byte-capacity estimate, adding fill bytes when the pad width exceeds the
unpadded char count. -/
def Argument.formatted_len (a : Argument) : Option Nat :=
  match a.inner.formatted_len with
  | none => none
  | some non_padded_len =>
    some (match a.pad with
      | some pad =>
        if pad.width > non_padded_len.chars then
          (pad.width - non_padded_len.chars) * utf8Len pad.using' + non_padded_len.bytes
        else
          non_padded_len.bytes
      | none => non_padded_len.bytes)

/-- Sum of per-argument estimates: the capacity computed by the
`compile_args!` macro (`macros.rs` `@total_capacity`). -/
def totalLen (args : List Argument) : Option Nat :=
  match args with
  | [] => some 0
  | a :: rest =>
    match a.formatted_len, totalLen rest with
    | some n, some m => some (n + m)
    | _, _ => none

/-- `CompileArgs::write_str_bytes` (`lib.rs` lines 145-158) over buffer
capacity `CAP`: append the bytes, `none` when some write would land at an
index `≥ CAP` (a panic). An empty byte run performs no write and cannot
panic. -/
def write_str_bytes (CAP : Nat) (buf s_bytes : List Nat) : Option (List Nat) :=
  if s_bytes.isEmpty ∨ buf.length + s_bytes.length ≤ CAP then
    some (buf ++ s_bytes)
  else none

/-- `CompileArgs::write_str` (`lib.rs` lines 130-143). -/
def write_str (CAP : Nat) (buf : List Nat) (s : List Nat) (fmt : Option StrFormat) :
    Option (List Nat) :=
  match fmt with
  | some f =>
    match ClippedStr.new (strBytes s) f.clip_at with
    | none => none
    | some (bytes, false) => write_str_bytes CAP buf bytes
    | some (bytes, true) =>
      match write_str_bytes CAP buf bytes with
      | none => none
      | some buf1 => write_str_bytes CAP buf1 (strBytes f.using')
  | none => write_str_bytes CAP buf (strBytes s)

/-- `CompileArgs::write_char` (`lib.rs` lines 160-198): append the UTF-8
encoding of `c`; `none` when the last encoded byte would land at an index
`≥ CAP`. -/
def write_char (CAP : Nat) (buf : List Nat) (c : Nat) : Option (List Nat) :=
  if buf.length + utf8Len c ≤ CAP then some (buf ++ encodeChar c) else none

/-- `CompileArgs::write_u128` (`argument.rs` lines 80-97): append the decimal
digits of `value`, written by the source loop from the highest position
downwards; `none` when the topmost write at `new_len - 1` is out of bounds. -/
def write_u128 (CAP : Nat) (buf : List Nat) (value : Nat) : Option (List Nat) :=
  if buf.length + log_10_ceil value ≤ CAP then
    some (buf ++ (decDigitsRevAux (log_10_ceil value) value).reverse)
  else none

/-- `CompileArgs::write_i128` (`argument.rs` lines 99-106): a `'-'` char
(byte 45) for negative values, then the digits of the absolute value. -/
def write_i128 (CAP : Nat) (buf : List Nat) (value : Int) : Option (List Nat) :=
  match (if value < 0 then write_char CAP buf 45 else some buf) with
  | none => none
  | some buf1 => write_u128 CAP buf1 value.natAbs

/-- Fill-char loops of `CompileArgs::format_arg` (`argument.rs` lines
115-119 and 133-139): write the fill char `count` times. -/
def writeFillChars (CAP : Nat) (buf : List Nat) : Nat → Nat → Option (List Nat)
  | 0, _ => some buf
  | n + 1, c =>
    match write_char CAP buf c with
    | none => none
    | some buf1 => writeFillChars CAP buf1 n c

/-- Dispatch on the argument variant inside `format_arg`
(`argument.rs` lines 126-132). -/
def writeContent (CAP : Nat) (buf : List Nat) : ArgumentInner → Option (List Nat)
  | .str s fmt => write_str CAP buf s fmt
  | .char c => write_char CAP buf c
  | .int v => write_i128 CAP buf v
  | .uint v => write_u128 CAP buf v

/-- `CompileArgs::format_arg` (`argument.rs` lines 108-141): when a pad spec
is present and its width exceeds the unpadded char estimate, write the
leading fill chars, the content and the trailing fill chars; otherwise write
the content alone. -/
def format_arg (CAP : Nat) (buf : List Nat) (arg : Argument) : Option (List Nat) :=
  match arg.pad with
  | some pad =>
    match arg.inner.formatted_len with
    | none => none
    | some non_padded_len =>
      if pad.width > non_padded_len.chars then
        let p := pad.compute_padding non_padded_len.chars
        match writeFillChars CAP buf p.1 pad.using' with
        | none => none
        | some buf1 =>
          match writeContent CAP buf1 arg.inner with
          | none => none
          | some buf2 => writeFillChars CAP buf2 p.2 pad.using'
      else writeContent CAP buf arg.inner
  | none => writeContent CAP buf arg.inner

/-- `CompileArgs::<CAP>::format` (`lib.rs` lines 200-209): fold `format_arg`
over the argument list starting from the empty buffer. -/
def format (CAP : Nat) (args : List Argument) : Option (List Nat) :=
  formatFrom CAP [] args
where
  /-- The `while` loop of `format`, parameterized by the current buffer. -/
  formatFrom (CAP : Nat) (buf : List Nat) : List Argument → Option (List Nat)
    | [] => some buf
    | a :: rest =>
      match format_arg CAP buf a with
      | none => none
      | some buf1 => formatFrom CAP buf1 rest

/-- `Fmt` (`format.rs` lines 131-139): the unpadded capacity estimate, the
string clip details (absent for numeric and char formats) and the optional
pad spec. The Rust type is generic over the argument type `T`; the only use
of `T` in `Fmt::capacity` is the constant `T::MAX_BYTES_PER_CHAR`, which the
functions below take as an explicit parameter. -/
structure Fmt where
  capacity : StrLength
  details : Option StrFormat
  pad : Option Pad
  deriving DecidableEq, Repr

/-- `Fmt::capacity` (`format.rs` lines 217-242), with `T::MAX_BYTES_PER_CHAR`
passed as `maxBytesPerChar`. -/
def fmtCapacity (maxBytesPerChar : Nat) (f : Fmt) : Nat :=
  match f.pad with
  | some pad =>
    let full_pad_capacity := utf8Len pad.using' * pad.width
    let max_width := if f.capacity.chars > pad.width then pad.width else f.capacity.chars
    let min_pad_capacity :=
      utf8Len pad.using' * (pad.width - max_width) + max_width * maxBytesPerChar
    let pad_capacity :=
      if full_pad_capacity > min_pad_capacity then full_pad_capacity else min_pad_capacity
    if pad_capacity > f.capacity.bytes then pad_capacity else f.capacity.bytes
  | none => f.capacity.bytes

/-- The bounded integer types with a `MaxLength` impl (`format.rs` lines
278-314). `usize`/`isize` are modelled as 64-bit. -/
inductive IntType where
  | u8 | u16 | u32 | u64 | u128 | usize
  | i8 | i16 | i32 | i64 | i128 | isize
  deriving DecidableEq, Repr

/-- Whether the type is signed. -/
def IntType.signed : IntType → Bool
  | .i8 | .i16 | .i32 | .i64 | .i128 | .isize => true
  | _ => false

/-- The most extreme value of the type rendered by the `MaxLength` impls:
the `MAX` constant for unsigned types, the `MIN` constant for signed ones. -/
def IntType.extreme : IntType → Int
  | .u8 => 255
  | .u16 => 65535
  | .u32 => 4294967295
  | .u64 => 18446744073709551615
  | .usize => 18446744073709551615
  | .u128 => 340282366920938463463374607431768211455
  | .i8 => -128
  | .i16 => -32768
  | .i32 => -2147483648
  | .i64 => -9223372036854775808
  | .isize => -9223372036854775808
  | .i128 => -170141183460469231731687303715884105728

/-- `MaxLength::MAX_LENGTH` (`format.rs` lines 278-314):
`StrLength::both(ArgumentWrapper::new(extreme).into_argument().formatted_len())`,
i.e. the formatted byte length of `MAX` for unsigned types and of `MIN`
(with its sign byte) for signed ones. -/
def IntType.MAX_LENGTH (t : IntType) : StrLength :=
  if t.signed then .both (intLen t.extreme) else .both (uintLen t.extreme.toNat)

/-- `fmt::<T>()` (`format.rs` lines 142-151): the default format for a
bounded integer type, whose capacity field is `T::MAX_LENGTH`. -/
def fmtDefault (t : IntType) : Fmt :=
  { capacity := t.MAX_LENGTH, details := none, pad := none }

/-- Little-endian decimal digits of `n` (the canonical base-10 expansion;
proved below to coincide with `Nat.digits 10 n`). The structural `fuel` is
instantiated with `n`, an upper bound on the digit count. -/
def decimalAux : Nat → Nat → List Nat
  | _, 0 => []
  | 0, _ + 1 => []
  | fuel + 1, n + 1 => ((n + 1) % 10) :: decimalAux fuel ((n + 1) / 10)

/-- Little-endian decimal digits of `n` (empty for `n = 0`). -/
def decimalDigits (n : Nat) : List Nat := decimalAux n n

/-- Canonical base-10 byte string of a natural number: `"0"` for zero,
otherwise the big-endian ASCII digits with no leading zeros. -/
def decimalBytes (n : Nat) : List Nat :=
  if n = 0 then [48] else ((decimalDigits n).map (48 + ·)).reverse

/-- Canonical base-10 byte string of an integer: a leading `'-'` (byte 45)
if and only if the value is negative. -/
def decimalBytesInt (v : Int) : List Nat :=
  (if v < 0 then [45] else []) ++ decimalBytes v.natAbs

/-- Validity of the value stored in an argument variant: strings hold Unicode
scalar values (the `&str` type invariant) and chars are scalar values. -/
def InnerValid : ArgumentInner → Prop
  | .str s none => Scalars s
  | .str s (some f) => Scalars s ∧ Scalars f.using'
  | .char c => isScalar c
  | .int _ => True
  | .uint _ => True

/-- Validity of a whole argument: the value is valid and the fill char of a
pad spec, if any, is a scalar value. -/
def ArgValid (a : Argument) : Prop :=
  InnerValid a.inner ∧ match a.pad with
    | some pad => isScalar pad.using'
    | none => True

/-- Valid UTF-8 byte sequences: exactly the encodings of scalar sequences. -/
def Utf8Valid (bs : List Nat) : Prop :=
  ∃ cs : List Nat, Scalars cs ∧ bs = strBytes cs

/-- Buffer states reachable from the empty buffer by the append operations of
`CompileArgs<CAP>`: writing a (possibly clipped) string, a char, a signed or
unsigned integer, or a run of padding fill chars. Each constructor requires
the operation to succeed (no panic) and the written values to satisfy the
Rust type invariants (`&str` and `char` hold scalar values). -/
inductive Reachable (CAP : Nat) : List Nat → Prop where
  | empty : Reachable CAP []
  | str {b s fmt b'} : Reachable CAP b → Scalars s →
      (∀ f, fmt = some f → Scalars f.using') →
      write_str CAP b s fmt = some b' → Reachable CAP b'
  | char {b c b'} : Reachable CAP b → isScalar c →
      write_char CAP b c = some b' → Reachable CAP b'
  | int {b v b'} : Reachable CAP b →
      write_i128 CAP b v = some b' → Reachable CAP b'
  | uint {b v b'} : Reachable CAP b →
      write_u128 CAP b v = some b' → Reachable CAP b'
  | fill {b n c b'} : Reachable CAP b → isScalar c →
      writeFillChars CAP b n c = some b' → Reachable CAP b'

lemma utf8Len_pos (c : Nat) : 1 ≤ utf8Len c := by
  unfold utf8Len; split_ifs <;> omega

lemma length_encodeChar (c : Nat) : (encodeChar c).length = utf8Len c := by
  unfold encodeChar utf8Len; split_ifs <;> rfl

lemma encodeChar_ne_nil (c : Nat) : encodeChar c ≠ [] := by
  intro h
  have h1 := length_encodeChar c
  rw [h, List.length_nil] at h1
  have h2 := utf8Len_pos c
  omega

lemma strBytes_append (a b : List Nat) :
    strBytes (a ++ b) = strBytes a ++ strBytes b := by
  induction a with
  | nil => rfl
  | cons c cs ih => simp [strBytes, ih]

lemma strBytes_eq_nil_iff (cs : List Nat) : strBytes cs = [] ↔ cs = [] := by
  cases cs with
  | nil => simp [strBytes]
  | cons c cs => simp [strBytes, encodeChar_ne_nil]

lemma strBytes_ascii (l : List Nat) (h : ∀ b ∈ l, b < 128) : strBytes l = l := by
  induction l with
  | nil => rfl
  | cons b rest ih =>
    have hb : b < 128 := h b (by simp)
    simp only [strBytes, encodeChar, if_pos hb]
    rw [ih fun x hx => h x (by simp [hx])]
    rfl

lemma strBytes_replicate_length (n c : Nat) :
    (strBytes (List.replicate n c)).length = n * utf8Len c := by
  induction n with
  | zero => simp [strBytes]
  | succ k ih =>
    simp only [List.replicate_succ, strBytes, List.length_append, ih, length_encodeChar]
    ring

/-- The head byte of an encoded scalar is a valid leading byte whose declared
width is exactly the number of bytes of the encoding. -/
lemma encode_head (c : Nat) :
    ∃ b t, encodeChar c = b :: t ∧ charWidth b = some (t.length + 1) := by
  have hand : ∀ x y : Nat, x &&& y ≤ y := fun x y => Nat.and_le_right
  by_cases h1 : c < 0x80
  · exact ⟨c, [], by simp [encodeChar, h1], by simp [charWidth, h1]⟩
  · by_cases h2 : c < 0x800
    · refine ⟨(c >>> 6 &&& 0x1f) ||| 0xC0, [(c &&& 0x3f) ||| 0x80],
        by simp [encodeChar, h1, h2], ?_⟩
      have hx : c >>> 6 &&& 0x1f ≤ 0x1f := hand _ _
      have key : ∀ x, x < 32 → ¬(x ||| 0xC0 < 128) ∧ (x ||| 0xC0) >>> 5 = 6 := by decide
      obtain ⟨k1, k2⟩ := key (c >>> 6 &&& 0x1f) (by omega)
      simp [charWidth, k1, k2]
    · by_cases h3 : c < 0x10000
      · refine ⟨(c >>> 12 &&& 0x0f) ||| 0xE0,
          [(c >>> 6 &&& 0x3f) ||| 0x80, (c &&& 0x3f) ||| 0x80],
          by simp [encodeChar, h1, h2, h3], ?_⟩
        have hx : c >>> 12 &&& 0x0f ≤ 0x0f := hand _ _
        have key : ∀ x, x < 16 →
            ¬(x ||| 0xE0 < 128) ∧ (x ||| 0xE0) >>> 5 ≠ 6 ∧ (x ||| 0xE0) >>> 4 = 14 := by
          decide
        obtain ⟨k1, k2, k3⟩ := key (c >>> 12 &&& 0x0f) (by omega)
        simp [charWidth, k1, k2, k3]
      · refine ⟨(c >>> 18 &&& 0x07) ||| 0xF0,
          [(c >>> 12 &&& 0x3f) ||| 0x80, (c >>> 6 &&& 0x3f) ||| 0x80,
           (c &&& 0x3f) ||| 0x80],
          by simp [encodeChar, h1, h2, h3], ?_⟩
        have hx : c >>> 18 &&& 0x07 ≤ 0x07 := hand _ _
        have key : ∀ x, x < 8 →
            ¬(x ||| 0xF0 < 128) ∧ (x ||| 0xF0) >>> 5 ≠ 6 ∧ (x ||| 0xF0) >>> 4 ≠ 14 ∧
              (x ||| 0xF0) >>> 3 = 30 := by decide
        obtain ⟨k1, k2, k3, k4⟩ := key (c >>> 18 &&& 0x07) (by omega)
        simp [charWidth, k1, k2, k3, k4]

lemma isScalar_lt {c : Nat} (h : isScalar c) : c < 0x110000 := by
  rcases h with h | ⟨_, h⟩ <;> omega

/-- The `count_chars` loop counts exactly one char per encoded scalar. -/
lemma countCharsAux_strBytes :
    ∀ (cs : List Nat) (fuel : Nat), (strBytes cs).length ≤ fuel →
      countCharsAux fuel (strBytes cs) = some cs.length := by
  intro cs
  induction cs with
  | nil => intro fuel _; cases fuel <;> simp [strBytes, countCharsAux]
  | cons c cs ih =>
    intro fuel hfuel
    obtain ⟨b, t, henc, hw⟩ := encode_head c
    have hlen : (strBytes (c :: cs)).length =
        1 + t.length + (strBytes cs).length := by
      simp [strBytes, henc]; omega
    cases fuel with
    | zero => omega
    | succ f =>
      have hshape : strBytes (c :: cs) = b :: (t ++ strBytes cs) := by
        simp [strBytes, henc]
      rw [hshape]
      simp only [countCharsAux, hw]
      have hdrop : (t ++ strBytes cs).drop (t.length + 1 - 1) = strBytes cs := by
        simp
      rw [hdrop, ih f (by omega)]
      simp

lemma count_chars_strBytes (cs : List Nat) :
    count_chars_bytes (strBytes cs) = some cs.length :=
  countCharsAux_strBytes cs (strBytes cs).length le_rfl

/-- The `ClippedStr::new` loop consumes exactly the encodings of the first
`n` scalars and leaves the encodings of the rest. -/
lemma clippedStrAux_strBytes :
    ∀ (cs : List Nat) (n fuel : Nat), (strBytes cs).length ≤ fuel →
      clippedStrAux fuel (strBytes cs) n =
        some (strBytes (cs.take n), strBytes (cs.drop n)) := by
  intro cs
  induction cs with
  | nil =>
    intro n fuel _
    cases n <;> cases fuel <;> simp [strBytes, clippedStrAux]
  | cons c cs ih =>
    intro n fuel hfuel
    cases n with
    | zero => cases fuel <;> simp [clippedStrAux, strBytes]
    | succ n =>
      obtain ⟨b, t, henc, hw⟩ := encode_head c
      have hlen : (strBytes (c :: cs)).length =
          1 + t.length + (strBytes cs).length := by
        simp [strBytes, henc]; omega
      cases fuel with
      | zero => omega
      | succ f =>
        have hshape : strBytes (c :: cs) = b :: (t ++ strBytes cs) := by
          simp [strBytes, henc]
        rw [hshape]
        simp only [clippedStrAux, hw]
        have hle : t.length + 1 - 1 ≤ (t ++ strBytes cs).length := by
          simp only [List.length_append]; omega
        rw [if_pos hle]
        have hdrop : (t ++ strBytes cs).drop (t.length + 1 - 1) = strBytes cs := by
          simp
        have htake : (t ++ strBytes cs).take (t.length + 1 - 1) = t := by
          simp
        rw [hdrop, htake, ih n f (by omega)]
        simp [strBytes, henc]

/-- `ClippedStr::new` on the bytes of a string: the prefix covering the
first `n` chars, `Clipped` (flag `true`) exactly when `n < cs.length`. -/
lemma clippedStr_new_strBytes (cs : List Nat) (n : Nat) :
    ClippedStr.new (strBytes cs) n =
      some (strBytes (cs.take n), decide (n < cs.length)) := by
  have hrw : ClippedStr.new (strBytes cs) n =
      some (strBytes (cs.take n), !(strBytes (cs.drop n)).isEmpty) := by
    unfold ClippedStr.new
    rw [clippedStrAux_strBytes cs n (strBytes cs).length le_rfl]
  rw [hrw]
  rcases Nat.lt_or_ge n cs.length with h | h
  · rcases hsb : strBytes (cs.drop n) with _ | ⟨x, xs⟩
    · exfalso
      have h1 := (strBytes_eq_nil_iff _).1 hsb
      have h2 := congrArg List.length h1
      simp at h2
      omega
    · simp [h]
  · have h1 : cs.drop n = [] := List.drop_eq_nil_of_le h
    rw [h1]
    simp [strBytes]
    omega

/-- The fuelled digit expansion computes the canonical base-10 expansion. -/
lemma decimalAux_eq_digits :
    ∀ (fuel v : Nat), v ≤ fuel → decimalAux fuel v = Nat.digits 10 v := by
  intro fuel
  induction fuel with
  | zero =>
    intro v hv
    have : v = 0 := by omega
    subst this
    simp [decimalAux]
  | succ f ih =>
    intro v hv
    cases v with
    | zero => simp [decimalAux]
    | succ w =>
      rw [show decimalAux (f + 1) (w + 1) = ((w + 1) % 10) :: decimalAux f ((w + 1) / 10)
          from rfl]
      rw [ih ((w + 1) / 10) (by omega)]
      rw [Nat.digits_def' (by norm_num : 1 < 10) (Nat.succ_pos w)]

lemma decimalDigits_eq_digits (n : Nat) : decimalDigits n = Nat.digits 10 n :=
  decimalAux_eq_digits n n le_rfl

lemma log10CeilAux_eq_length (fuel v : Nat) :
    log10CeilAux fuel v = (decimalAux fuel v).length := by
  induction fuel generalizing v with
  | zero => cases v <;> simp [log10CeilAux, decimalAux]
  | succ f ih => cases v <;> simp [log10CeilAux, decimalAux, ih] <;> omega

/-- `log_10_ceil` is the canonical decimal digit count. -/
lemma log_10_ceil_eq_digits_length (v : Nat) :
    log_10_ceil v = if v = 0 then 1 else (Nat.digits 10 v).length := by
  unfold log_10_ceil
  split_ifs with h
  · rfl
  · rw [log10CeilAux_eq_length, decimalAux_eq_digits v v le_rfl]

/-- `log_10_ceil` is `1` on zero and `floor (log10 v) + 1` otherwise. -/
lemma log_10_ceil_eq_log (v : Nat) :
    log_10_ceil v = if v = 0 then 1 else Nat.log 10 v + 1 := by
  rw [log_10_ceil_eq_digits_length]
  split_ifs with h
  · rfl
  · exact Nat.digits_len 10 v (by norm_num) h

lemma decDigitsRevAux_length (k v : Nat) : (decDigitsRevAux k v).length = k := by
  induction k generalizing v with
  | zero => rfl
  | succ j ih => simp [decDigitsRevAux, ih]

lemma decDigitsRevAux_digits :
    ∀ v : Nat, decDigitsRevAux (Nat.digits 10 v).length v =
      (Nat.digits 10 v).map (48 + ·) := by
  intro v
  induction v using Nat.strong_induction_on with
  | _ v ih =>
    cases v with
    | zero => simp [decDigitsRevAux]
    | succ w =>
      rw [Nat.digits_def' (by norm_num : 1 < 10) (Nat.succ_pos w)]
      simp only [List.length_cons, List.map_cons]
      rw [show decDigitsRevAux ((Nat.digits 10 ((w + 1) / 10)).length + 1) (w + 1) =
          (48 + (w + 1) % 10) :: decDigitsRevAux ((Nat.digits 10 ((w + 1) / 10)).length)
            ((w + 1) / 10) from rfl]
      rw [ih ((w + 1) / 10) (by omega)]

/-- The digit run written by `write_u128` is the canonical decimal string. -/
lemma decDigitsRev_eq_decimalBytes (v : Nat) :
    (decDigitsRevAux (log_10_ceil v) v).reverse = decimalBytes v := by
  unfold decimalBytes
  rw [log_10_ceil_eq_digits_length]
  split_ifs with h
  · subst h; rfl
  · rw [decDigitsRevAux_digits v, decimalDigits_eq_digits]

lemma decimalBytes_length (v : Nat) : (decimalBytes v).length = log_10_ceil v := by
  rw [← decDigitsRev_eq_decimalBytes, List.length_reverse, decDigitsRevAux_length]

lemma decimalBytes_ascii (v : Nat) : ∀ b ∈ decimalBytes v, b < 128 := by
  rw [← decDigitsRev_eq_decimalBytes]
  intro b hb
  rw [List.mem_reverse] at hb
  revert hb
  generalize log_10_ceil v = k
  induction k generalizing v with
  | zero => simp [decDigitsRevAux]
  | succ j ih =>
    simp only [decDigitsRevAux, List.mem_cons]
    rintro (rfl | hb)
    · have := Nat.mod_lt v (show 0 < 10 by norm_num)
      omega
    · exact ih _ hb

lemma decimalBytesInt_ascii (v : Int) : ∀ b ∈ decimalBytesInt v, b < 128 := by
  unfold decimalBytesInt
  intro b hb
  rw [List.mem_append] at hb
  rcases hb with hb | hb
  · split_ifs at hb <;> simp at hb <;> omega
  · exact decimalBytes_ascii _ b hb

lemma decimalBytesInt_length (v : Int) : (decimalBytesInt v).length = intLen v := by
  unfold decimalBytesInt intLen
  split_ifs <;> simp [decimalBytes_length] <;> omega

lemma write_str_bytes_some {CAP : Nat} {buf sb : List Nat}
    (h : buf.length + sb.length ≤ CAP) :
    write_str_bytes CAP buf sb = some (buf ++ sb) := by
  simp [write_str_bytes, h]

lemma write_str_bytes_inv {CAP : Nat} {buf sb out : List Nat}
    (h : write_str_bytes CAP buf sb = some out) : out = buf ++ sb := by
  unfold write_str_bytes at h
  split_ifs at h
  exact (Option.some.injEq _ _ ▸ h).symm

lemma write_char_some {CAP : Nat} {buf : List Nat} {c : Nat}
    (h : buf.length + utf8Len c ≤ CAP) :
    write_char CAP buf c = some (buf ++ encodeChar c) := by
  simp [write_char, h]

lemma write_char_inv {CAP : Nat} {buf out : List Nat} {c : Nat}
    (h : write_char CAP buf c = some out) : out = buf ++ encodeChar c := by
  unfold write_char at h
  split_ifs at h
  exact (Option.some.injEq _ _ ▸ h).symm

lemma write_u128_some {CAP : Nat} {buf : List Nat} {v : Nat}
    (h : buf.length + log_10_ceil v ≤ CAP) :
    write_u128 CAP buf v = some (buf ++ decimalBytes v) := by
  simp [write_u128, h, decDigitsRev_eq_decimalBytes]

lemma write_u128_inv {CAP : Nat} {buf out : List Nat} {v : Nat}
    (h : write_u128 CAP buf v = some out) : out = buf ++ decimalBytes v := by
  unfold write_u128 at h
  split_ifs at h
  rw [decDigitsRev_eq_decimalBytes] at h
  exact (Option.some.injEq _ _ ▸ h).symm

lemma encodeChar_minus : encodeChar 45 = [45] := by decide

lemma write_i128_some {CAP : Nat} {buf : List Nat} {v : Int}
    (h : buf.length + intLen v ≤ CAP) :
    write_i128 CAP buf v = some (buf ++ decimalBytesInt v) := by
  unfold write_i128 decimalBytesInt
  by_cases hv : v < 0
  · have h1 : buf.length + utf8Len 45 ≤ CAP := by
      unfold intLen at h
      have := utf8Len_pos 45
      have h45 : utf8Len 45 = 1 := by decide
      simp [hv] at h
      have := log_10_ceil_eq_log v.natAbs
      omega
    rw [if_pos hv, write_char_some h1, encodeChar_minus]
    have h2 : (buf ++ [45]).length + log_10_ceil v.natAbs ≤ CAP := by
      unfold intLen at h
      simp [hv] at h
      simp
      omega
    simp only [write_u128_some h2]
    simp [hv]
  · rw [if_neg hv]
    have h2 : buf.length + log_10_ceil v.natAbs ≤ CAP := by
      unfold intLen at h
      simp [hv] at h
      omega
    simp [write_u128_some h2, hv]

lemma write_i128_inv {CAP : Nat} {buf out : List Nat} {v : Int}
    (h : write_i128 CAP buf v = some out) : out = buf ++ decimalBytesInt v := by
  unfold write_i128 at h
  by_cases hv : v < 0
  · rw [if_pos hv] at h
    cases hwc : write_char CAP buf 45 with
    | none => rw [hwc] at h; simp at h
    | some buf1 =>
      rw [hwc] at h
      simp only at h
      have h1 := write_char_inv hwc
      have h2 := write_u128_inv h
      rw [h2, h1, encodeChar_minus]
      simp [decimalBytesInt, hv]
  · rw [if_neg hv] at h
    simp only at h
    have h2 := write_u128_inv h
    rw [h2]
    simp [decimalBytesInt, hv]

lemma writeFillChars_some {CAP : Nat} {c : Nat} :
    ∀ {n : Nat} {buf : List Nat}, buf.length + n * utf8Len c ≤ CAP →
    writeFillChars CAP buf n c = some (buf ++ strBytes (List.replicate n c)) := by
  intro n
  induction n with
  | zero => intro buf _; simp [writeFillChars, strBytes]
  | succ k ih =>
    intro buf h
    have hm : (k + 1) * utf8Len c = k * utf8Len c + utf8Len c := by ring
    have h1 : buf.length + utf8Len c ≤ CAP := by omega
    unfold writeFillChars
    rw [write_char_some h1]
    have h2 : (buf ++ encodeChar c).length + k * utf8Len c ≤ CAP := by
      simp [length_encodeChar]
      omega
    simp only [ih h2]
    simp [List.replicate_succ, strBytes]

lemma writeFillChars_inv {CAP : Nat} {c : Nat} :
    ∀ {n : Nat} {buf out : List Nat}, writeFillChars CAP buf n c = some out →
      out = buf ++ strBytes (List.replicate n c) := by
  intro n
  induction n with
  | zero =>
    intro buf out h
    simp [writeFillChars] at h
    simp [strBytes, h.symm]
  | succ k ih =>
    intro buf out h
    unfold writeFillChars at h
    cases hwc : write_char CAP buf c with
    | none => rw [hwc] at h; simp at h
    | some buf1 =>
      rw [hwc] at h
      simp only at h
      rw [ih h, write_char_inv hwc]
      simp [List.replicate_succ, strBytes]

/-- The byte chunk that `write_str` appends for string `s` under the given
clip format: the whole encoding, or the clipped prefix followed by the
replacement when the string has more than `clip_at` chars. -/
def strWritten (s : List Nat) : Option StrFormat → List Nat
  | none => strBytes s
  | some f =>
    if f.clip_at < s.length then strBytes (s.take f.clip_at) ++ strBytes f.using'
    else strBytes s

/-- Char count of the chunk `write_str` appends (used by the estimator). -/
def strChars (s : List Nat) : Option StrFormat → Nat
  | none => s.length
  | some f => if f.clip_at < s.length then f.clip_at + f.using'.length else s.length

lemma write_str_some {CAP : Nat} {buf s : List Nat} {fmt : Option StrFormat}
    (h : buf.length + (strWritten s fmt).length ≤ CAP) :
    write_str CAP buf s fmt = some (buf ++ strWritten s fmt) := by
  cases fmt with
  | none => exact write_str_bytes_some h
  | some f =>
    simp only [write_str]
    rw [clippedStr_new_strBytes]
    by_cases hlt : f.clip_at < s.length
    · simp only [hlt, decide_True]
      simp only [strWritten] at h ⊢
      rw [if_pos hlt] at h ⊢
      have h1 : buf.length + (strBytes (s.take f.clip_at)).length ≤ CAP := by
        simp only [List.length_append] at h
        omega
      rw [write_str_bytes_some h1]
      have h2 : (buf ++ strBytes (s.take f.clip_at)).length +
          (strBytes f.using').length ≤ CAP := by
        simp only [List.length_append] at h ⊢
        omega
      simp only [write_str_bytes_some h2]
      simp
    · simp only [hlt, decide_False]
      have hs : s.take f.clip_at = s := List.take_of_length_le (by omega)
      simp only [strWritten] at h ⊢
      rw [if_neg hlt] at h ⊢
      rw [hs]
      exact write_str_bytes_some h

lemma write_str_inv {CAP : Nat} {buf s out : List Nat} {fmt : Option StrFormat}
    (h : write_str CAP buf s fmt = some out) : out = buf ++ strWritten s fmt := by
  cases fmt with
  | none => exact write_str_bytes_inv h
  | some f =>
    simp only [write_str] at h
    rw [clippedStr_new_strBytes] at h
    by_cases hlt : f.clip_at < s.length
    · simp only [hlt, decide_True] at h
      simp only [strWritten]
      rw [if_pos hlt]
      cases hw1 : write_str_bytes CAP buf (strBytes (s.take f.clip_at)) with
      | none => rw [hw1] at h; simp at h
      | some buf1 =>
        rw [hw1] at h
        simp only at h
        rw [write_str_bytes_inv h, write_str_bytes_inv hw1]
        simp
    · simp only [hlt, decide_False] at h
      have hs : s.take f.clip_at = s := List.take_of_length_le (by omega)
      simp only [strWritten]
      rw [if_neg hlt]
      rw [hs] at h
      exact write_str_bytes_inv h

/-- The estimator on a string argument: exactly the byte length and char
count of the chunk that `write_str` appends. -/
lemma str_formatted_len (s : List Nat) (fmt : Option StrFormat) :
    (ArgumentInner.str s fmt).formatted_len =
      some ⟨(strWritten s fmt).length, strChars s fmt⟩ := by
  cases fmt with
  | none =>
    simp only [ArgumentInner.formatted_len]
    rw [count_chars_strBytes]
    rfl
  | some f =>
    simp only [ArgumentInner.formatted_len]
    rw [clippedStr_new_strBytes]
    by_cases hlt : f.clip_at < s.length
    · simp only [hlt, decide_True]
      rw [count_chars_strBytes]
      simp only [strWritten, strChars]
      rw [if_pos hlt, if_pos hlt]
      simp
    · simp only [hlt, decide_False]
      rw [count_chars_strBytes]
      simp only [strWritten, strChars]
      rw [if_neg hlt, if_neg hlt]
      rfl

/-- The content write appends exactly the estimated number of bytes. -/
lemma writeContent_exact {inner : ArgumentInner} {L : StrLength} {CAP : Nat}
    {buf : List Nat} (hL : inner.formatted_len = some L)
    (hcap : buf.length + L.bytes ≤ CAP) :
    ∃ w, writeContent CAP buf inner = some (buf ++ w) ∧ w.length = L.bytes := by
  cases inner with
  | str s fmt =>
    rw [str_formatted_len] at hL
    obtain rfl : (⟨(strWritten s fmt).length, strChars s fmt⟩ : StrLength) = L := by
      simpa using hL
    exact ⟨strWritten s fmt, write_str_some hcap, rfl⟩
  | char c =>
    obtain rfl : (⟨utf8Len c, 1⟩ : StrLength) = L := by
      simpa [ArgumentInner.formatted_len] using hL
    exact ⟨encodeChar c, write_char_some hcap, length_encodeChar c⟩
  | int v =>
    obtain rfl : StrLength.both (intLen v) = L := by
      simpa [ArgumentInner.formatted_len] using hL
    exact ⟨decimalBytesInt v, write_i128_some hcap, decimalBytesInt_length v⟩
  | uint v =>
    obtain rfl : StrLength.both (uintLen v) = L := by
      simpa [ArgumentInner.formatted_len] using hL
    exact ⟨decimalBytes v, write_u128_some hcap, decimalBytes_length v⟩

/-- When padding applies, the two padding counts sum to the char deficit. -/
lemma compute_padding_sum {p : Pad} {char_count : Nat} (h : char_count < p.width) :
    (p.compute_padding char_count).1 + (p.compute_padding char_count).2 =
      p.width - char_count := by
  unfold Pad.compute_padding
  rw [if_neg (by omega)]
  cases p.align <;> simp <;> omega

/-- `format_arg` appends exactly `Argument::formatted_len` bytes whenever
that many bytes fit in the remaining capacity. -/
lemma format_arg_exact {a : Argument} {L CAP : Nat} {buf : List Nat}
    (hL : a.formatted_len = some L) (hcap : buf.length + L ≤ CAP) :
    ∃ w, format_arg CAP buf a = some (buf ++ w) ∧ w.length = L := by
  cases hinner : a.inner.formatted_len with
  | none => simp [Argument.formatted_len, hinner] at hL
  | some npl =>
    cases hpad : a.pad with
    | none =>
      simp only [Argument.formatted_len, hinner, hpad, Option.some.injEq] at hL
      simp only [format_arg, hpad]
      have hcap2 : buf.length + npl.bytes ≤ CAP := by omega
      obtain ⟨w, hw, hlen⟩ := writeContent_exact hinner hcap2
      exact ⟨w, hw, by omega⟩
    | some pad =>
      simp only [Argument.formatted_len, hinner, hpad, Option.some.injEq] at hL
      by_cases hgt : pad.width > npl.chars
      · rw [if_pos hgt] at hL
        simp only [format_arg, hpad, hinner, if_pos hgt]
        set pb := (pad.compute_padding npl.chars).1 with hpb
        set pa := (pad.compute_padding npl.chars).2 with hpa
        have hsum : pb + pa = pad.width - npl.chars := compute_padding_sum hgt
        have hdist : (pad.width - npl.chars) * utf8Len pad.using' =
            pb * utf8Len pad.using' + pa * utf8Len pad.using' := by
          rw [← hsum]; ring
        have h1 : buf.length + pb * utf8Len pad.using' ≤ CAP := by omega
        rw [writeFillChars_some h1]
        have h2 : (buf ++ strBytes (List.replicate pb pad.using')).length +
            npl.bytes ≤ CAP := by
          simp only [List.length_append, strBytes_replicate_length]
          omega
        obtain ⟨wc, hwc, hwclen⟩ := writeContent_exact hinner h2
        simp only [hwc]
        have h3 : ((buf ++ strBytes (List.replicate pb pad.using')) ++ wc).length +
            pa * utf8Len pad.using' ≤ CAP := by
          simp only [List.length_append, strBytes_replicate_length, hwclen]
          omega
        rw [writeFillChars_some h3]
        refine ⟨strBytes (List.replicate pb pad.using') ++ wc ++
          strBytes (List.replicate pa pad.using'), by simp, ?_⟩
        simp only [List.length_append, strBytes_replicate_length, hwclen]
        omega
      · rw [if_neg hgt] at hL
        simp only [format_arg, hpad, hinner, if_neg hgt]
        have hcap2 : buf.length + npl.bytes ≤ CAP := by omega
        obtain ⟨w, hw, hlen⟩ := writeContent_exact hinner hcap2
        exact ⟨w, hw, by omega⟩

/-- The formatting loop appends exactly the summed estimate when it fits. -/
lemma formatFrom_exact :
    ∀ (args : List Argument) (buf : List Nat) (L CAP : Nat),
      totalLen args = some L → buf.length + L ≤ CAP →
      ∃ w, format.formatFrom CAP buf args = some (buf ++ w) ∧ w.length = L := by
  intro args
  induction args with
  | nil =>
    intro buf L CAP hL hcap
    simp only [totalLen, Option.some.injEq] at hL
    exact ⟨[], by simp [format.formatFrom], by simpa using hL⟩
  | cons a rest ih =>
    intro buf L CAP hL hcap
    cases ha : a.formatted_len with
    | none => simp [totalLen, ha] at hL
    | some n =>
      cases hrest : totalLen rest with
      | none => simp [totalLen, ha, hrest] at hL
      | some m =>
        simp only [totalLen, ha, hrest, Option.some.injEq] at hL
        have hcap1 : buf.length + n ≤ CAP := by omega
        obtain ⟨w1, hw1, hlen1⟩ := format_arg_exact ha hcap1
        simp only [format.formatFrom, hw1]
        have hcap2 : (buf ++ w1).length + m ≤ CAP := by
          simp only [List.length_append]
          omega
        obtain ⟨w2, hw2, hlen2⟩ := ih (buf ++ w1) m CAP hrest hcap2
        rw [hw2]
        exact ⟨w1 ++ w2, by simp, by simp [hlen1, hlen2]; omega⟩

lemma utf8Valid_append {a b : List Nat} (ha : Utf8Valid a) (hb : Utf8Valid b) :
    Utf8Valid (a ++ b) := by
  obtain ⟨cs, hcs, rfl⟩ := ha
  obtain ⟨ds, hds, rfl⟩ := hb
  exact ⟨cs ++ ds, fun c hc => by
    rcases List.mem_append.1 hc with h | h
    · exact hcs c h
    · exact hds c h, (strBytes_append cs ds).symm⟩

lemma utf8Valid_nil : Utf8Valid [] := ⟨[], by simp [Scalars], rfl⟩

lemma utf8Valid_strBytes {cs : List Nat} (h : Scalars cs) :
    Utf8Valid (strBytes cs) := ⟨cs, h, rfl⟩

lemma utf8Valid_of_ascii {l : List Nat} (h : ∀ b ∈ l, b < 128) : Utf8Valid l :=
  ⟨l, fun c hc => Or.inl (by have := h c hc; omega), (strBytes_ascii l h).symm⟩

lemma scalars_take {s : List Nat} (h : Scalars s) (n : Nat) : Scalars (s.take n) :=
  fun c hc => h c (List.mem_of_mem_take hc)

lemma scalars_append {a b : List Nat} (ha : Scalars a) (hb : Scalars b) :
    Scalars (a ++ b) := fun c hc => by
  rcases List.mem_append.1 hc with h | h
  · exact ha c h
  · exact hb c h

/-- The chunk appended by `write_str` is valid UTF-8 for valid inputs. -/
lemma strWritten_valid {s : List Nat} {fmt : Option StrFormat} (hs : Scalars s)
    (hf : ∀ f, fmt = some f → Scalars f.using') : Utf8Valid (strWritten s fmt) := by
  cases fmt with
  | none => exact utf8Valid_strBytes hs
  | some f =>
    simp only [strWritten]
    split_ifs
    · rw [← strBytes_append]
      exact utf8Valid_strBytes (scalars_append (scalars_take hs _) (hf f rfl))
    · exact utf8Valid_strBytes hs

lemma utf8Valid_encodeChar {c : Nat} (h : isScalar c) : Utf8Valid (encodeChar c) :=
  ⟨[c], fun x hx => by simp at hx; rwa [hx], by simp [strBytes]⟩

lemma scalars_replicate {n c : Nat} (h : isScalar c) : Scalars (List.replicate n c) :=
  fun x hx => by rw [List.eq_of_mem_replicate hx]; exact h

/-- C1: for every argument list whose summed per-argument estimate
(`Argument::formatted_len`) is at most `CAP`, `CompileArgs::<CAP>::format`
completes without aborting (no buffer write is out of bounds, modelled by
the result being `some`), and the final buffer length is at most `CAP`. -/
theorem c1_format_within_capacity (CAP : Nat) (args : List Argument) (L : Nat)
    (hL : totalLen args = some L) (hcap : L ≤ CAP) :
    ∃ buf, format CAP args = some buf ∧ buf.length ≤ CAP := by
  obtain ⟨w, hw, hlen⟩ := formatFrom_exact args [] L CAP hL (by simpa using hcap)
  refine ⟨w, ?_, by omega⟩
  rw [format]
  simpa using hw

/-- Witness for C1 at the argument list of the spec scenario
`format(9, [2u32, " + ", 2u32, " = ", 4u32])`. -/
theorem c1_format_within_capacity_witness :
    ∃ buf,
      format 9 [⟨.uint 2, none⟩, ⟨.str [32, 43, 32] none, none⟩, ⟨.uint 2, none⟩,
        ⟨.str [32, 61, 32] none, none⟩, ⟨.uint 4, none⟩] = some buf ∧
      buf.length ≤ 9 :=
  c1_format_within_capacity 9
    [⟨.uint 2, none⟩, ⟨.str [32, 43, 32] none, none⟩, ⟨.uint 2, none⟩,
      ⟨.str [32, 61, 32] none, none⟩, ⟨.uint 4, none⟩] 9 (by decide) (by decide)

/-- C2: every buffer state reachable from the empty buffer by the append
operations (strings with or without clipping, chars, integers, padding fill
runs) is valid UTF-8 — the written prefix `storage[0..len]`, which `as_str`
exposes, is always the UTF-8 encoding of some sequence of Unicode scalars. -/
theorem c2_reachable_buffers_are_utf8 (CAP : Nat) (buf : List Nat)
    (h : Reachable CAP buf) : Utf8Valid buf := by
  induction h with
  | empty => exact utf8Valid_nil
  | str _ hs hf hw ih =>
    rw [write_str_inv hw]
    exact utf8Valid_append ih (strWritten_valid hs hf)
  | char _ hc hw ih =>
    rw [write_char_inv hw]
    exact utf8Valid_append ih (utf8Valid_encodeChar hc)
  | int _ hw ih =>
    rw [write_i128_inv hw]
    exact utf8Valid_append ih (utf8Valid_of_ascii (decimalBytesInt_ascii _))
  | uint _ hw ih =>
    rw [write_u128_inv hw]
    exact utf8Valid_append ih (utf8Valid_of_ascii (decimalBytes_ascii _))
  | fill _ hc hw ih =>
    rw [writeFillChars_inv hw]
    exact utf8Valid_append ih (utf8Valid_strBytes (scalars_replicate hc))

/-- Witness for C2: a buffer reached by writing the char `'ß'` (U+00DF) and
the integer `-3` is valid UTF-8. -/
theorem c2_reachable_buffers_are_utf8_witness : Utf8Valid [195, 159, 45, 51] :=
  c2_reachable_buffers_are_utf8 4 [195, 159, 45, 51]
    (@Reachable.int 4 [195, 159] (-3) [195, 159, 45, 51]
      (@Reachable.char 4 [] 223 [195, 159] Reachable.empty (by decide) (by decide))
      (by decide))

/-- C4: when `max_chars < count_chars(s)`, the clipped write produces exactly
the byte prefix of `s` covering its first `max_chars` chars followed by the
replacement `r`; the output's char count is `max_chars + count_chars(r)`; and
the estimator returns exactly those bytes and chars — its truncation decision
and boundary agree with the writer's. -/
theorem c4_clip_truncation (s r : List Nat) (n : Nat) (hs : Scalars s)
    (hr : Scalars r) (hn : 0 < n) (hlt : n < s.length) :
    ClippedStr.new (strBytes s) n = some (strBytes (s.take n), true) ∧
    strBytes s = strBytes (s.take n) ++ strBytes (s.drop n) ∧
    (∀ CAP buf,
      buf.length + ((strBytes (s.take n)).length + (strBytes r).length) ≤ CAP →
      write_str CAP buf s (some ⟨n, r⟩) =
        some (buf ++ (strBytes (s.take n) ++ strBytes r))) ∧
    count_chars_bytes (strBytes (s.take n) ++ strBytes r) = some (n + r.length) ∧
    (ArgumentInner.str s (some ⟨n, r⟩)).formatted_len =
      some ⟨(strBytes (s.take n)).length + (strBytes r).length, n + r.length⟩ := by
  have hclip : ClippedStr.new (strBytes s) n = some (strBytes (s.take n), true) := by
    rw [clippedStr_new_strBytes]
    simp [hlt]
  refine ⟨hclip, ?_, ?_, ?_, ?_⟩
  · rw [← strBytes_append, List.take_append_drop]
  · intro CAP buf hcap
    have hwr : strWritten s (some ⟨n, r⟩) = strBytes (s.take n) ++ strBytes r := by
      simp only [strWritten]
      rw [if_pos hlt]
    have hcap2 : buf.length + (strWritten s (some ⟨n, r⟩)).length ≤ CAP := by
      rw [hwr]
      simpa using hcap
    rw [write_str_some hcap2, hwr]
  · rw [← strBytes_append, count_chars_strBytes]
    congr 1
    simp
    omega
  · rw [str_formatted_len]
    have hwr : strWritten s (some ⟨n, r⟩) = strBytes (s.take n) ++ strBytes r := by
      simp only [strWritten]
      rw [if_pos hlt]
    have hch : strChars s (some ⟨n, r⟩) = n + r.length := by
      simp only [strChars]
      rw [if_pos hlt]
    rw [hwr, hch]
    simp

/-- Witness for C4 at `s = "Tℝeßt"`, `n = 2`, `r = "…"` (the clipped prefix
is `"Tℝ"`, four bytes). -/
theorem c4_clip_truncation_witness :
    ClippedStr.new (strBytes [84, 8477, 101, 223, 116]) 2 =
      some (strBytes ([84, 8477, 101, 223, 116].take 2), true) ∧
    strBytes [84, 8477, 101, 223, 116] =
      strBytes ([84, 8477, 101, 223, 116].take 2) ++
        strBytes ([84, 8477, 101, 223, 116].drop 2) ∧
    (∀ CAP buf,
      buf.length + ((strBytes ([84, 8477, 101, 223, 116].take 2)).length +
        (strBytes [8230]).length) ≤ CAP →
      write_str CAP buf [84, 8477, 101, 223, 116] (some ⟨2, [8230]⟩) =
        some (buf ++ (strBytes ([84, 8477, 101, 223, 116].take 2) ++
          strBytes [8230]))) ∧
    count_chars_bytes (strBytes ([84, 8477, 101, 223, 116].take 2) ++
      strBytes [8230]) = some (2 + [8230].length) ∧
    (ArgumentInner.str [84, 8477, 101, 223, 116] (some ⟨2, [8230]⟩)).formatted_len =
      some ⟨(strBytes ([84, 8477, 101, 223, 116].take 2)).length +
        (strBytes [8230]).length, 2 + [8230].length⟩ :=
  c4_clip_truncation [84, 8477, 101, 223, 116] [8230] 2 (by decide) (by decide)
    (by decide) (by decide)

/-- C5: with actual content char count at least the pad width the padding
calculator returns `(0, 0)` and `format_arg` passes the content through
completely unmodified; otherwise `Start` (`left`) alignment yields
`(0, deficit)`, `End` (`right`) alignment yields `(deficit, 0)` and `Center`
yields `(deficit / 2, deficit - deficit / 2)` — the odd remainder goes after
the content. -/
theorem c5_compute_padding (p : Pad) (content_chars : Nat) :
    (content_chars ≥ p.width →
      p.compute_padding content_chars = (0, 0) ∧
      ∀ (CAP : Nat) (buf : List Nat) (inner : ArgumentInner) (npl : StrLength),
        inner.formatted_len = some npl → npl.chars = content_chars →
        format_arg CAP buf ⟨inner, some p⟩ = writeContent CAP buf inner) ∧
    (content_chars < p.width →
      (p.align = .left →
        p.compute_padding content_chars = (0, p.width - content_chars)) ∧
      (p.align = .right →
        p.compute_padding content_chars = (p.width - content_chars, 0)) ∧
      (p.align = .center →
        p.compute_padding content_chars =
          ((p.width - content_chars) / 2,
           (p.width - content_chars) - (p.width - content_chars) / 2))) := by
  constructor
  · intro hge
    constructor
    · simp only [Pad.compute_padding]
      rw [if_pos hge]
    · intro CAP buf inner npl hnpl hch
      simp only [format_arg, hnpl]
      rw [if_neg (by omega)]
  · intro hlt
    refine ⟨?_, ?_, ?_⟩ <;> intro halign <;>
      simp only [Pad.compute_padding, halign] <;> rw [if_neg (by omega)]

/-- Witness for C5: width-8 pads over 3-char content, plus the pass-through
case of a 5-char content under width 4 (center pad of deficit 5 splits 2/3). -/
theorem c5_compute_padding_witness :
    (Pad.mk .center 8 32).compute_padding 3 = (2, 3) ∧
    (Pad.mk .left 8 32).compute_padding 3 = (0, 5) ∧
    (Pad.mk .right 8 32).compute_padding 3 = (5, 0) ∧
    (Pad.mk .center 4 32).compute_padding 5 = (0, 0) ∧
    format_arg 6 [] ⟨.uint 19999, some ⟨.center, 4, 32⟩⟩ =
      writeContent 6 [] (.uint 19999) :=
  ⟨((c5_compute_padding ⟨.center, 8, 32⟩ 3).2 (by decide)).2.2 rfl,
   ((c5_compute_padding ⟨.left, 8, 32⟩ 3).2 (by decide)).1 rfl,
   ((c5_compute_padding ⟨.right, 8, 32⟩ 3).2 (by decide)).2.1 rfl,
   ((c5_compute_padding ⟨.center, 4, 32⟩ 5).1 (by decide)).1,
   ((c5_compute_padding ⟨.center, 4, 32⟩ 5).1 (by decide)).2 6 []
     (.uint 19999) (.both 5) (by decide) (by decide)⟩

/-- C7: when the string fits (`count_chars(s) ≤ max_chars`, `max_chars`
positive), clipping is the identity: the scan reports `Full` and the write
appends exactly `s`, never the replacement. -/
theorem c7_clip_identity (s r : List Nat) (n : Nat) (hs : Scalars s)
    (hn : 0 < n) (hge : s.length ≤ n) :
    ClippedStr.new (strBytes s) n = some (strBytes s, false) ∧
    ∀ CAP buf, buf.length + (strBytes s).length ≤ CAP →
      write_str CAP buf s (some ⟨n, r⟩) = some (buf ++ strBytes s) := by
  have htake : s.take n = s := List.take_of_length_le hge
  constructor
  · rw [clippedStr_new_strBytes, htake]
    simp
    omega
  · intro CAP buf hcap
    have hwr : strWritten s (some ⟨n, r⟩) = strBytes s := by
      simp only [strWritten]
      rw [if_neg (by omega)]
    have hcap2 : buf.length + (strWritten s (some ⟨n, r⟩)).length ≤ CAP := by
      rw [hwr]; exact hcap
    rw [write_str_some hcap2, hwr]

/-- Witness for C7 at `s = "dynamic"`, `max_chars = 10`, `r = "-"`. -/
theorem c7_clip_identity_witness :
    ClippedStr.new (strBytes [100, 121, 110, 97, 109, 105, 99]) 10 =
      some (strBytes [100, 121, 110, 97, 109, 105, 99], false) ∧
    ∀ CAP buf,
      buf.length + (strBytes [100, 121, 110, 97, 109, 105, 99]).length ≤ CAP →
      write_str CAP buf [100, 121, 110, 97, 109, 105, 99] (some ⟨10, [45]⟩) =
        some (buf ++ strBytes [100, 121, 110, 97, 109, 105, 99]) :=
  c7_clip_identity [100, 121, 110, 97, 109, 105, 99] [45] 10 (by decide)
    (by decide) (by decide)

/-- C6: every 128-bit integer (signed or unsigned) is written as exactly its
canonical base-10 byte string, with a leading `'-'` (byte 45) if and only if
the value is negative; the formatted byte length is the sign byte plus the
decimal digit count, where `0` has one digit and a positive `m` has
`floor (log10 m) + 1`; in particular `0` writes the one-byte string `"0"`.
(`decimalDigits` is canonical: it coincides with `Nat.digits 10`.) -/
theorem c6_integer_decimal_formatting :
    (∀ v : Int, -(2 ^ 127) ≤ v → v < 2 ^ 127 →
      (∀ CAP buf, buf.length + intLen v ≤ CAP →
        write_i128 CAP buf v = some (buf ++ decimalBytesInt v)) ∧
      (v < 0 → decimalBytesInt v = 45 :: decimalBytes v.natAbs) ∧
      (0 ≤ v → decimalBytesInt v = decimalBytes v.natAbs) ∧
      (decimalBytesInt v).length = intLen v ∧
      intLen v = (if v < 0 then 1 else 0) +
        (if v.natAbs = 0 then 1 else Nat.log 10 v.natAbs + 1)) ∧
    (∀ u : Nat, u < 2 ^ 128 →
      (∀ CAP buf, buf.length + uintLen u ≤ CAP →
        write_u128 CAP buf u = some (buf ++ decimalBytes u)) ∧
      (decimalBytes u).length = uintLen u ∧
      uintLen u = (if u = 0 then 1 else Nat.log 10 u + 1)) ∧
    decimalBytes 0 = [48] ∧
    (∀ n : Nat, decimalDigits n = Nat.digits 10 n) := by
  refine ⟨?_, ?_, by decide, decimalDigits_eq_digits⟩
  · intro v _ _
    refine ⟨fun CAP buf hcap => write_i128_some hcap, ?_, ?_,
      decimalBytesInt_length v, ?_⟩
    · intro hv
      simp [decimalBytesInt, hv]
    · intro hv
      simp [decimalBytesInt, not_lt.2 hv]
    · unfold intLen
      rw [log_10_ceil_eq_log]
  · intro u _
    refine ⟨fun CAP buf hcap => write_u128_some hcap, decimalBytes_length u, ?_⟩
    unfold uintLen
    rw [log_10_ceil_eq_log]

/-- Witness for C6 at `v = -120` and `u = 0`: `"-120"` and `"0"`. -/
theorem c6_integer_decimal_formatting_witness :
    write_i128 10 [] (-120) = some ([] ++ decimalBytesInt (-120)) ∧
    write_u128 10 [] 0 = some ([] ++ decimalBytes 0) ∧
    (decimalBytesInt (-120)).length = intLen (-120) :=
  ⟨((c6_integer_decimal_formatting.1 (-120) (by norm_num) (by norm_num)).1 10 []
      (by decide)),
   ((c6_integer_decimal_formatting.2.1 0 (by norm_num)).1 10 [] (by decide)),
   (c6_integer_decimal_formatting.1 (-120) (by norm_num) (by norm_num)).2.2.2.1⟩

/-- C8: the per-argument estimate is exact at write time: whenever
`Argument::formatted_len` fits in the remaining capacity, `format_arg`
succeeds and advances the buffer by precisely that many bytes — the estimate
is the number of bytes written, not merely an upper bound. -/
theorem c8_formatted_len_exact (a : Argument) (L CAP : Nat) (buf : List Nat)
    (hL : a.formatted_len = some L) (hcap : buf.length + L ≤ CAP) :
    ∃ w, format_arg CAP buf a = some (buf ++ w) ∧ w.length = L :=
  format_arg_exact hL hcap

/-- Witness for C8: the clipped-and-padded string argument
`"test string" => clip(4, "…").pad_left(8, ' ')` writes exactly its
estimated 11 bytes. -/
theorem c8_formatted_len_exact_witness :
    ∃ w,
      format_arg 20 []
        ⟨.str [116, 101, 115, 116, 32, 115, 116, 114, 105, 110, 103]
          (some ⟨4, [8230]⟩), some ⟨.left, 8, 32⟩⟩ = some ([] ++ w) ∧
      w.length = 10 :=
  c8_formatted_len_exact
    ⟨.str [116, 101, 115, 116, 32, 115, 116, 114, 105, 110, 103]
      (some ⟨4, [8230]⟩), some ⟨.left, 8, 32⟩⟩ 10 20 [] (by decide) (by decide)

lemma chars_lt_of_bytes_lt {s : List Nat} (h : ∀ b ∈ strBytes s, b < 128) :
    ∀ c ∈ s, c < 128 := by
  induction s with
  | nil => simp
  | cons c cs ih =>
    intro x hx
    rcases List.mem_cons.1 hx with hxc | hxc
    · subst hxc
      obtain ⟨b, t, henc, hw⟩ := encode_head x
      have hbmem : b ∈ strBytes (x :: cs) := by
        rw [show strBytes (x :: cs) = encodeChar x ++ strBytes cs from rfl, henc]
        simp
      have hb : b < 128 := h b hbmem
      have h1 : charWidth b = some 1 := by simp [charWidth, hb]
      rw [hw] at h1
      have ht0 : t.length + 1 = 1 := by simpa using h1
      have hlen1 : utf8Len x = 1 := by
        rw [← length_encodeChar, henc]
        simp only [List.length_cons]
        omega
      by_contra hge
      unfold utf8Len at hlen1
      rw [if_neg (by omega)] at hlen1
      split_ifs at hlen1 <;> omega
    · refine ih ?_ x hxc
      intro y hy
      refine h y ?_
      rw [show strBytes (c :: cs) = encodeChar c ++ strBytes cs from rfl]
      exact List.mem_append.2 (Or.inr hy)

lemma assert_is_ascii_iff (l : List Nat) :
    assert_is_ascii l = true ↔ ∀ b ∈ l, b < 128 := by
  induction l with
  | nil => simp [assert_is_ascii]
  | cons b rest ih =>
    by_cases hb : b < 128
    · simp [assert_is_ascii, hb, ih]
    · simp [assert_is_ascii, hb]

/-- C10: `Ascii::new(s)` returns (successfully wrapping `s`) if and only if
every byte of `s` is strictly below `0x80`; otherwise it panics (`none`).
When it succeeds the string is pure ASCII: its UTF-8 encoding is itself,
one byte per character. -/
theorem c10_ascii_new (s : List Nat) :
    (Ascii.new s = some s ↔ ∀ b ∈ strBytes s, b < 128) ∧
    (Ascii.new s = none ↔ ¬∀ b ∈ strBytes s, b < 128) ∧
    ((∀ b ∈ strBytes s, b < 128) →
      strBytes s = s ∧ (strBytes s).length = s.length) := by
  have hlast : (∀ b ∈ strBytes s, b < 128) →
      strBytes s = s ∧ (strBytes s).length = s.length := by
    intro h
    have heq : strBytes s = s := strBytes_ascii s (chars_lt_of_bytes_lt h)
    exact ⟨heq, by rw [heq]⟩
  by_cases hA : assert_is_ascii (strBytes s) = true
  · have hall := (assert_is_ascii_iff _).1 hA
    refine ⟨?_, ?_, hlast⟩
    · simp only [Ascii.new, hA, if_true]
      exact ⟨fun _ => hall, fun _ => by trivial⟩
    · simp only [Ascii.new, hA, if_true]
      constructor
      · intro hcon
        exact absurd hcon (by simp)
      · intro hcon
        exact absurd hall hcon
  · have hnall : ¬∀ b ∈ strBytes s, b < 128 :=
      fun h => hA ((assert_is_ascii_iff _).2 h)
    have hAf : assert_is_ascii (strBytes s) = false := by
      revert hA
      cases assert_is_ascii (strBytes s) <;> simp
    refine ⟨?_, ?_, hlast⟩
    · simp only [Ascii.new, hAf, if_false]
      constructor
      · intro hcon
        exact absurd hcon (by simp)
      · intro hcon
        exact absurd hcon hnall
    · simp only [Ascii.new, hAf, if_false]
      exact ⟨fun _ => hnall, fun _ => by trivial⟩

/-- Witness for C10: `"te"` is accepted, `"tß"` is rejected. -/
theorem c10_ascii_new_witness :
    (Ascii.new [116, 101] = some [116, 101]) ∧
    (Ascii.new [116, 223] = none) ∧ strBytes [116, 101] = [116, 101] :=
  ⟨(c10_ascii_new [116, 101]).1.2 (by decide),
   (c10_ascii_new [116, 223]).2.1.2 (by decide),
   ((c10_ascii_new [116, 101]).2.2 (by decide)).1⟩

/-- C9: for every supported bounded integer type, the static
`MaxLength::MAX_LENGTH` constant (the capacity field that `fmt::<T>()`
installs as the default format capacity) has its `bytes` field equal to the
byte length of the type's most extreme value rendered in decimal: `MAX` for
unsigned types and `MIN` (with its `'-'` sign byte) for signed ones; its
`chars` field agrees, and `fmt::<T>()` uses exactly this constant. -/
theorem c9_max_length_constants (t : IntType) :
    (t.MAX_LENGTH).bytes = (decimalBytesInt t.extreme).length ∧
    (t.MAX_LENGTH).chars = (decimalBytesInt t.extreme).length ∧
    (fmtDefault t).capacity = t.MAX_LENGTH := by
  cases t <;> exact ⟨by decide, by decide, rfl⟩

/-- C3: for a format with a pad spec, `Fmt::capacity` equals the maximum of
three quantities: the full-pad capacity `width * byte_length(fill)`, the
min-pad capacity
`byte_length(fill) * (width - min(chars, width)) + min(chars, width) * MAX_BYTES_PER_CHAR`,
and the unpadded byte estimate (kept when neither pad term exceeds it).
Moreover this value bounds the bytes actually written (per C8, the
`Argument::formatted_len` of the padded argument) for every dynamic value
whose unpadded length `npl` is dominated by the estimate — `npl.bytes` and
`npl.chars` within the estimate, and `npl.bytes ≤ MAX_BYTES_PER_CHAR * npl.chars`,
which holds for every value of the content type by definition of
`MAX_BYTES_PER_CHAR`. -/
theorem c3_pad_capacity_formula (MBPC : Nat) (f : Fmt) (pad : Pad)
    (hp : f.pad = some pad) :
    fmtCapacity MBPC f =
      max (pad.width * utf8Len pad.using')
        (max (utf8Len pad.using' * (pad.width - min f.capacity.chars pad.width) +
              min f.capacity.chars pad.width * MBPC)
          f.capacity.bytes) ∧
    ∀ (a : Argument) (npl : StrLength) (L : Nat),
      a.pad = some pad → a.inner.formatted_len = some npl →
      npl.bytes ≤ f.capacity.bytes → npl.chars ≤ f.capacity.chars →
      npl.bytes ≤ MBPC * npl.chars →
      a.formatted_len = some L → L ≤ fmtCapacity MBPC f := by
  constructor
  · simp only [fmtCapacity, hp]
    have hmin : (if f.capacity.chars > pad.width then pad.width
        else f.capacity.chars) = min f.capacity.chars pad.width := by
      rw [Nat.min_def]
      split_ifs <;> omega
    rw [hmin]
    rw [Nat.mul_comm (utf8Len pad.using') pad.width]
    split_ifs <;> omega
  · intro a npl L hpa hinner hb hc hbc hL
    simp only [Argument.formatted_len, hinner, hpa, Option.some.injEq] at hL
    simp only [fmtCapacity, hp]
    set u := utf8Len pad.using' with hu
    by_cases hgt : pad.width > npl.chars
    · rw [if_pos hgt] at hL
      set X := (if f.capacity.chars > pad.width then pad.width
        else f.capacity.chars) with hX
      have hXle : X ≤ pad.width := by rw [hX]; split_ifs <;> omega
      have hchX : npl.chars ≤ X := by rw [hX]; split_ifs <;> omega
      by_cases hum : u ≤ MBPC
      · have e1 : (pad.width - npl.chars) * u =
            (pad.width - X) * u + (X - npl.chars) * u := by
          rw [← Nat.add_mul]
          congr 1
          omega
        have i1 : (X - npl.chars) * u ≤ (X - npl.chars) * MBPC :=
          Nat.mul_le_mul_left _ hum
        have e2 : X * MBPC = (X - npl.chars) * MBPC + npl.chars * MBPC := by
          rw [← Nat.add_mul]
          congr 1
          omega
        have e3 : MBPC * npl.chars = npl.chars * MBPC := Nat.mul_comm _ _
        have e4 : u * (pad.width - X) = (pad.width - X) * u := Nat.mul_comm _ _
        split_ifs <;> omega
      · have e1 : (pad.width - npl.chars) * u + npl.chars * u = pad.width * u := by
          rw [← Nat.add_mul]
          congr 1
          omega
        have i1 : MBPC * npl.chars ≤ u * npl.chars :=
          Nat.mul_le_mul_right _ (by omega)
        have e2 : u * npl.chars = npl.chars * u := Nat.mul_comm _ _
        have e3 : u * pad.width = pad.width * u := Nat.mul_comm _ _
        split_ifs <;> omega
    · rw [if_neg hgt] at hL
      split_ifs <;> omega

/-- Witness for C3 at the format `clip(4, "…").pad_left(8, ' ')` over `&str`
(`MAX_BYTES_PER_CHAR = 4`), whose capacity is 23, applied to the argument
`"teßt"` (5 bytes, 4 chars unclipped; 9 bytes written with padding). -/
theorem c3_pad_capacity_formula_witness :
    fmtCapacity 4 ⟨⟨19, 5⟩, some ⟨4, [8230]⟩, some ⟨.left, 8, 32⟩⟩ =
      max (8 * utf8Len 32) (max (utf8Len 32 * (8 - min 5 8) + min 5 8 * 4) 19) ∧
    9 ≤ fmtCapacity 4 ⟨⟨19, 5⟩, some ⟨4, [8230]⟩, some ⟨.left, 8, 32⟩⟩ :=
  ⟨(c3_pad_capacity_formula 4 ⟨⟨19, 5⟩, some ⟨4, [8230]⟩, some ⟨.left, 8, 32⟩⟩
      ⟨.left, 8, 32⟩ rfl).1,
   (c3_pad_capacity_formula 4 ⟨⟨19, 5⟩, some ⟨4, [8230]⟩, some ⟨.left, 8, 32⟩⟩
      ⟨.left, 8, 32⟩ rfl).2
     ⟨.str [116, 101, 223, 116] (some ⟨4, [8230]⟩), some ⟨.left, 8, 32⟩⟩
     ⟨5, 4⟩ 9 rfl (by decide) (by decide) (by decide) (by decide) (by decide)⟩
